import Mathlib

/-!
Verification of the r0 crate (bare-metal RAM initialization, `src/lib.rs`).

The crate consists of three startup routines:

* `init_data sdata edata sidata` — copies `.data` from its load address into
  RAM: `while sdata < edata { ptr::write(sdata, ptr::read(sidata));
  sdata = sdata.offset(1); sidata = sidata.offset(1); }`;
* `zero_bss sbss ebss` — zero-fills `.bss`:
  `while sbss < ebss { ptr::write_volatile(sbss, mem::zeroed());
  sbss = sbss.offset(1); }`;
* `run_init_array start end` — computes
  `n = (end - start) / size_of::<fn()>()` and calls the `n` function pointers
  of `slice::from_raw_parts(start, n)` in order.

We model memory of `T` elements as a total map `Nat → Nat` from
element-granularity addresses to element values (`offset(1)` is `+ 1`), and
make every memory access explicit in an event trace: `ptr::read` produces a
`MemEvent.read`, `ptr::write` a non-volatile `MemEvent.write`, and
`ptr::write_volatile` a volatile `MemEvent.write`.  `mem::zeroed()` for the
fixed-width unsigned word types is the value `0`.

The Rust `while` loops are compiled to structurally recursive functions over
an explicit fuel; the top-level definitions supply fuel `end - start`, and we
prove (fuel-irrelevance lemmas below) that any fuel `≥ end - start` yields the
same result, which is exactly the termination argument for the source loops.
-/

/-- A single memory access performed by the startup code: a read of an
address, or a write of a value to an address, tagged with whether the store
was issued through `ptr::write_volatile` (`volatile = true`) or plain
`ptr::write` (`volatile = false`). -/
inductive MemEvent where
  | read (addr : Nat) : MemEvent
  | write (addr val : Nat) (volatile : Bool) : MemEvent
deriving DecidableEq, Repr

/-- The address an event touches. -/
def MemEvent.addr : MemEvent → Nat
  | .read a => a
  | .write a _ _ => a

/-- Whether the event is a store. -/
def MemEvent.isStore : MemEvent → Bool
  | .read _ => false
  | .write _ _ _ => true

/-- Pointwise memory update: the effect of a store of `v` at address `a`. -/
def wr (m : Nat → Nat) (a v : Nat) : Nat → Nat :=
  fun x => if x = a then v else m x

/-- The loop body of `init_data`, structurally recursive on fuel.  One
iteration performs `ptr::write(sdata, ptr::read(sidata))` and advances both
pointers by one element, exactly as the source `while sdata < edata` loop. -/
def init_go (fuel : Nat) (sdata edata sidata : Nat) (m : Nat → Nat) :
    (Nat → Nat) × List MemEvent :=
  match fuel with
  | 0 => (m, [])
  | fuel + 1 =>
    if sdata < edata then
      let v := m sidata
      let p := init_go fuel (sdata + 1) edata (sidata + 1) (wr m sdata v)
      (p.1, MemEvent.read sidata :: MemEvent.write sdata v false :: p.2)
    else (m, [])

/-- `r0::init_data::<T>(sdata, edata, sidata)` acting on memory `m`:
final memory together with the trace of memory accesses. -/
def init_data (sdata edata sidata : Nat) (m : Nat → Nat) :
    (Nat → Nat) × List MemEvent :=
  init_go (edata - sdata) sdata edata sidata m

/-- The loop body of `zero_bss`, structurally recursive on fuel.  One
iteration performs `ptr::write_volatile(sbss, mem::zeroed())` and advances the
pointer by one element, exactly as the source `while sbss < ebss` loop. -/
def zero_go (fuel : Nat) (sbss ebss : Nat) (m : Nat → Nat) :
    (Nat → Nat) × List MemEvent :=
  match fuel with
  | 0 => (m, [])
  | fuel + 1 =>
    if sbss < ebss then
      let p := zero_go fuel (sbss + 1) ebss (wr m sbss 0)
      (p.1, MemEvent.write sbss 0 true :: p.2)
    else (m, [])

/-- `r0::zero_bss::<T>(sbss, ebss)` acting on memory `m`: final memory
together with the trace of memory accesses. -/
def zero_bss (sbss ebss : Nat) (m : Nat → Nat) :
    (Nat → Nat) × List MemEvent :=
  zero_go (ebss - sbss) sbss ebss m

/-- Characterization of the memory produced by the `zero_bss` loop at any
fuel: an address is zeroed exactly when it lies in the range and within the
first `fuel` iterations. -/
lemma zero_go_mem (e : Nat) :
    ∀ (n s : Nat) (m : Nat → Nat) (a : Nat),
      (zero_go n s e m).1 a =
        if s ≤ a ∧ a < e ∧ a < s + n then 0 else m a := by
  intro n
  induction n with
  | zero =>
    intro s m a
    simp only [zero_go]
    have : ¬ (s ≤ a ∧ a < e ∧ a < s) := by omega
    simp [this]
  | succ n ih =>
    intro s m a
    simp only [zero_go]
    by_cases hse : s < e
    · simp only [if_pos hse]
      rw [ih]
      by_cases ha : a = s
      · subst ha
        have h1 : ¬ (a + 1 ≤ a ∧ a < e ∧ a < a + 1 + n) := by omega
        have h2 : a ≤ a ∧ a < e ∧ a < a + (n + 1) := by omega
        simp [h1, h2, wr]
      · by_cases hin : s ≤ a ∧ a < e ∧ a < s + (n + 1)
        · have h1 : s + 1 ≤ a ∧ a < e ∧ a < s + 1 + n := by omega
          simp [h1, hin]
        · have h1 : ¬ (s + 1 ≤ a ∧ a < e ∧ a < s + 1 + n) := by omega
          simp [h1, hin, wr, ha]
    · simp only [if_neg hse]
      have : ¬ (s ≤ a ∧ a < e ∧ a < s + (n + 1)) := by omega
      simp [this]

/-- Memory after `zero_bss`: zero on the range, untouched elsewhere. -/
lemma zero_bss_mem (s e : Nat) (m : Nat → Nat) (a : Nat) :
    (zero_bss s e m).1 a = if s ≤ a ∧ a < e then 0 else m a := by
  unfold zero_bss
  rw [zero_go_mem]
  by_cases h : s ≤ a ∧ a < e
  · have : s ≤ a ∧ a < e ∧ a < s + (e - s) := by omega
    simp [h, this]
  · have : ¬ (s ≤ a ∧ a < e ∧ a < s + (e - s)) := by omega
    simp [h, this]

/-- Frame for the `init_data` loop: addresses below the destination cursor or
beyond the cursor's reach of `fuel` elements are never written. -/
lemma init_go_frame (e : Nat) :
    ∀ (n s si : Nat) (m : Nat → Nat) (a : Nat),
      a < s ∨ s + n ≤ a → (init_go n s e si m).1 a = m a := by
  intro n
  induction n with
  | zero => intro s si m a _; simp [init_go]
  | succ n ih =>
    intro s si m a ha
    simp only [init_go]
    by_cases hse : s < e
    · simp only [if_pos hse]
      rw [ih]
      · have hne : a ≠ s := by omega
        simp [wr, hne]
      · omega
    · simp [if_neg hse]

/-- Frame for the `init_data` loop, end-pointer form: addresses at or beyond
the exclusive end pointer are never written. -/
lemma init_go_frame_end (e : Nat) :
    ∀ (n s si : Nat) (m : Nat → Nat) (a : Nat),
      e ≤ a → (init_go n s e si m).1 a = m a := by
  intro n
  induction n with
  | zero => intro s si m a _; simp [init_go]
  | succ n ih =>
    intro s si m a ha
    simp only [init_go]
    by_cases hse : s < e
    · simp only [if_pos hse]
      rw [ih _ _ _ _ ha]
      have hne : a ≠ s := by omega
      simp [wr, hne]
    · simp [if_neg hse]

/-- Copy correctness of the `init_data` loop at any fuel, for a source region
disjoint from the destination region: after `n` iterations each destination
element holds the original source element, and the source region is
untouched. -/
lemma init_go_copy (e : Nat) :
    ∀ (n s si : Nat) (m : Nat → Nat),
      s + n ≤ e → (s + n ≤ si ∨ si + n ≤ s) →
      ∀ i, i < n →
        (init_go n s e si m).1 (s + i) = m (si + i) ∧
        (init_go n s e si m).1 (si + i) = m (si + i) := by
  intro n
  induction n with
  | zero => intro s si m _ _ i hi; omega
  | succ n ih =>
    intro s si m hle hdisj i hi
    have hse : s < e := by omega
    simp only [init_go, if_pos hse]
    have hrec := ih (s + 1) (si + 1) (wr m s (m si)) (by omega) (by omega)
    match i with
    | 0 =>
      constructor
      · rw [init_go_frame e n (s + 1) (si + 1) _ (s + 0) (by omega)]
        simp [wr]
      · rw [init_go_frame e n (s + 1) (si + 1) _ (si + 0) (by omega)]
        have hne : si ≠ s := by omega
        simp [wr, hne]
    | j + 1 =>
      have hj := hrec j (by omega)
      have hsrc : wr m s (m si) (si + 1 + j) = m (si + 1 + j) := by
        have hne : si + 1 + j ≠ s := by omega
        simp [wr, hne]
      constructor
      · have := hj.1
        rw [hsrc] at this
        have harr : s + (j + 1) = s + 1 + j := by omega
        have harr' : si + (j + 1) = si + 1 + j := by omega
        rw [harr, harr']
        exact this
      · have := hj.2
        rw [hsrc] at this
        have harr' : si + (j + 1) = si + 1 + j := by omega
        rw [harr']
        exact this

/-- When the loop guard fails, any fuel gives the same (trivial) result: the
`zero_bss` loop exits immediately. -/
lemma zero_go_stop (s e : Nat) (m : Nat → Nat) (hse : ¬ s < e) :
    ∀ f, zero_go f s e m = (m, []) := by
  intro f
  cases f with
  | zero => rfl
  | succ f => simp [zero_go, if_neg hse]

/-- Fuel irrelevance for the `zero_bss` loop: any two fuels of at least
`e - s` produce identical results — the loop terminates within `e - s`
iterations. -/
lemma zero_go_ext (e : Nat) :
    ∀ (n f₁ f₂ s : Nat) (m : Nat → Nat), e - s ≤ n → e - s ≤ f₁ → e - s ≤ f₂ →
      zero_go f₁ s e m = zero_go f₂ s e m := by
  intro n
  induction n with
  | zero =>
    intro f₁ f₂ s m hn _ _
    have hse : ¬ s < e := by omega
    rw [zero_go_stop s e m hse, zero_go_stop s e m hse]
  | succ n ih =>
    intro f₁ f₂ s m hn h1 h2
    by_cases hse : s < e
    · cases f₁ with
      | zero => omega
      | succ g₁ =>
        cases f₂ with
        | zero => omega
        | succ g₂ =>
          simp only [zero_go, if_pos hse]
          rw [ih g₁ g₂ (s + 1) (wr m s 0) (by omega) (by omega) (by omega)]
    · rw [zero_go_stop s e m hse, zero_go_stop s e m hse]

/-- When the loop guard fails, any fuel gives the same (trivial) result: the
`init_data` loop exits immediately. -/
lemma init_go_stop (s e si : Nat) (m : Nat → Nat) (hse : ¬ s < e) :
    ∀ f, init_go f s e si m = (m, []) := by
  intro f
  cases f with
  | zero => rfl
  | succ f => simp [init_go, if_neg hse]

/-- Fuel irrelevance for the `init_data` loop: any two fuels of at least
`e - s` produce identical results — the loop terminates within `e - s`
iterations. -/
lemma init_go_ext (e : Nat) :
    ∀ (n f₁ f₂ s si : Nat) (m : Nat → Nat), e - s ≤ n → e - s ≤ f₁ → e - s ≤ f₂ →
      init_go f₁ s e si m = init_go f₂ s e si m := by
  intro n
  induction n with
  | zero =>
    intro f₁ f₂ s si m hn _ _
    have hse : ¬ s < e := by omega
    rw [init_go_stop s e si m hse, init_go_stop s e si m hse]
  | succ n ih =>
    intro f₁ f₂ s si m hn h1 h2
    by_cases hse : s < e
    · cases f₁ with
      | zero => omega
      | succ g₁ =>
        cases f₂ with
        | zero => omega
        | succ g₂ =>
          simp only [init_go, if_pos hse]
          rw [ih g₁ g₂ (s + 1) (si + 1) (wr m s (m si)) (by omega) (by omega)
            (by omega)]
    · rw [init_go_stop s e si m hse, init_go_stop s e si m hse]

/-- Every event the `zero_bss` loop emits is a volatile store of the zero
value, at an address inside the range reached by the fuel. -/
lemma zero_go_trace_mem (e : Nat) :
    ∀ (n s : Nat) (m : Nat → Nat) (ev : MemEvent),
      ev ∈ (zero_go n s e m).2 →
      ∃ a, ev = MemEvent.write a 0 true ∧ s ≤ a ∧ a < e ∧ a < s + n := by
  intro n
  induction n with
  | zero => intro s m ev h; simp [zero_go] at h
  | succ n ih =>
    intro s m ev h
    by_cases hse : s < e
    · simp only [zero_go, if_pos hse, List.mem_cons] at h
      rcases h with h | h
      · exact ⟨s, h, by omega⟩
      · obtain ⟨a, rfl, ha⟩ := ih (s + 1) (wr m s 0) _ h
        exact ⟨a, rfl, by omega⟩
    · simp [zero_go, if_neg hse] at h

/-- The first event the `zero_bss` loop emits (when any) is at the current
cursor address. -/
lemma zero_go_head (e : Nat) :
    ∀ (n s : Nat) (m : Nat → Nat) (ev : MemEvent) (l : List MemEvent),
      (zero_go n s e m).2 = ev :: l → ev.addr = s := by
  intro n
  induction n with
  | zero => intro s m ev l h; simp [zero_go] at h
  | succ n _ =>
    intro s m ev l h
    by_cases hse : s < e
    · simp only [zero_go, if_pos hse, List.cons.injEq] at h
      rw [← h.1]
      rfl
    · simp [zero_go, if_neg hse] at h

/-- A list of addresses is in strictly increasing order. -/
def strictInc : List Nat → Prop
  | [] => True
  | [_] => True
  | a :: b :: l => a < b ∧ strictInc (b :: l)

/-- The `zero_bss` loop issues its stores in strictly increasing address
order. -/
lemma zero_go_inc (e : Nat) :
    ∀ (n s : Nat) (m : Nat → Nat),
      strictInc (((zero_go n s e m).2).map MemEvent.addr) := by
  intro n
  induction n with
  | zero => intro s m; simp [zero_go, strictInc]
  | succ n ih =>
    intro s m
    by_cases hse : s < e
    · simp only [zero_go, if_pos hse, List.map_cons]
      rcases hrest : (zero_go n (s + 1) e (wr m s 0)).2 with _ | ⟨ev, l⟩
      · simp [hrest, strictInc, MemEvent.addr]
      · have hhead : ev.addr = s + 1 := zero_go_head e n (s + 1) _ ev l hrest
        have hinc := ih (s + 1) (wr m s 0)
        rw [hrest] at hinc
        simp only [List.map_cons] at hinc ⊢
        refine ⟨?_, hinc⟩
        rw [hhead]
        simp only [MemEvent.addr]
        omega
    · simp [zero_go, if_neg hse, strictInc]

/-- Exact store count for the `zero_bss` loop per address: each address in
the range is stored to exactly once. -/
lemma zero_go_cnt (e : Nat) :
    ∀ (n s : Nat) (m : Nat → Nat) (a : Nat),
      ((zero_go n s e m).2).countP (fun ev => MemEvent.addr ev == a) =
        if s ≤ a ∧ a < e ∧ a < s + n then 1 else 0 := by
  intro n
  induction n with
  | zero =>
    intro s m a
    have : ¬ (s ≤ a ∧ a < e ∧ a < s) := by omega
    simp [zero_go, this]
  | succ n ih =>
    intro s m a
    by_cases hse : s < e
    · simp only [zero_go, if_pos hse]
      rw [List.countP_cons, ih]
      by_cases ha : a = s
      · subst ha
        have h1 : ¬ (a + 1 ≤ a ∧ a < e ∧ a < a + 1 + n) := by omega
        have h2 : a ≤ a ∧ a < e ∧ a < a + (n + 1) := by omega
        simp [h1, h2, MemEvent.addr]
      · by_cases hin : s ≤ a ∧ a < e ∧ a < s + (n + 1)
        · have h1 : s + 1 ≤ a ∧ a < e ∧ a < s + 1 + n := by omega
          simp [h1, hin, MemEvent.addr, Ne.symm ha]
        · have h1 : ¬ (s + 1 ≤ a ∧ a < e ∧ a < s + 1 + n) := by omega
          simp [h1, hin, MemEvent.addr, Ne.symm ha]
    · have : ¬ (s ≤ a ∧ a < e ∧ a < s + (n + 1)) := by omega
      simp [zero_go, if_neg hse, this]

/-- Every store the `init_data` loop emits targets an address in
`[sdata, edata)`; reads are the only accesses outside it. -/
lemma init_go_stores (e : Nat) :
    ∀ (n s si : Nat) (m : Nat → Nat) (ev : MemEvent),
      ev ∈ (init_go n s e si m).2 → ev.isStore = true →
      s ≤ ev.addr ∧ ev.addr < e := by
  intro n
  induction n with
  | zero => intro s si m ev h; simp [init_go] at h
  | succ n ih =>
    intro s si m ev h hst
    by_cases hse : s < e
    · simp only [init_go, if_pos hse, List.mem_cons] at h
      rcases h with h | h | h
      · rw [h] at hst
        simp [MemEvent.isStore] at hst
      · rw [h]
        simp only [MemEvent.addr]
        omega
      · have := ih (s + 1) (si + 1) (wr m s (m si)) ev h hst
        omega
    · simp [init_go, if_neg hse] at h

/-- Iteration count of the `init_data` loop, measured as the number of stores
it performs (each iteration performs exactly one store): with fuel `n` at most
`e - s`, the loop iterates exactly `n` times. -/
lemma init_go_cnt_store (e : Nat) :
    ∀ (n s si : Nat) (m : Nat → Nat), n ≤ e - s →
      ((init_go n s e si m).2).countP MemEvent.isStore = n := by
  intro n
  induction n with
  | zero => intro s si m _; simp [init_go]
  | succ n ih =>
    intro s si m hn
    have hse : s < e := by omega
    simp only [init_go, if_pos hse]
    rw [List.countP_cons, List.countP_cons, ih (s + 1) (si + 1) _ (by omega)]
    simp [MemEvent.isStore]

/-- Iteration count of the `zero_bss` loop, measured as the number of stores
it performs (each iteration performs exactly one store): with fuel `n` at most
`e - s`, the loop iterates exactly `n` times. -/
lemma zero_go_cnt_store (e : Nat) :
    ∀ (n s : Nat) (m : Nat → Nat), n ≤ e - s →
      ((zero_go n s e m).2).countP MemEvent.isStore = n := by
  intro n
  induction n with
  | zero => intro s m _; simp [zero_go]
  | succ n ih =>
    intro s m hn
    have hse : s < e := by omega
    simp only [zero_go, if_pos hse]
    rw [List.countP_cons, ih (s + 1) _ (by omega)]
    simp [MemEvent.isStore]

/-!
Byte-granularity model, for the element-width independence property.

Here memory is a map from byte addresses to byte values, `k` is
`mem::size_of::<T>()`, pointers are byte addresses and `offset(1)` is `+ k`.
One iteration of `zero_bss` stores `k` zero bytes at `[s, s + k)`; one
iteration of `init_data` performs the raw `k`-byte transfer
`ptr::write(sdata, ptr::read(sidata))`, copying the bytes at
`[sidata, sidata + k)` to `[sdata, sdata + k)`.
-/

/-- One `ptr::write_volatile(sbss, mem::zeroed())` at byte granularity:
`k` zero bytes stored at `[s, s + k)`. -/
def zstore (k s : Nat) (m : Nat → Nat) : Nat → Nat :=
  fun a => if s ≤ a ∧ a < s + k then 0 else m a

/-- One `ptr::write(sdata, ptr::read(sidata))` at byte granularity: the `k`
bytes at `[si, si + k)` transferred to `[s, s + k)`. -/
def cstore (k s si : Nat) (m : Nat → Nat) : Nat → Nat :=
  fun a => if s ≤ a ∧ a < s + k then m (si + (a - s)) else m a

/-- The `zero_bss` loop at byte granularity, structurally recursive on
fuel. -/
def zgo_b (k : Nat) (fuel : Nat) (s e : Nat) (m : Nat → Nat) : Nat → Nat :=
  match fuel with
  | 0 => m
  | fuel + 1 =>
    if s < e then zgo_b k fuel (s + k) e (zstore k s m) else m

/-- `r0::zero_bss::<T>(sbss, ebss)` on byte-addressed memory, where
`k = mem::size_of::<T>()`. -/
def zero_bss_bytes (k s e : Nat) (m : Nat → Nat) : Nat → Nat :=
  zgo_b k (e - s) s e m

/-- The `init_data` loop at byte granularity, structurally recursive on
fuel. -/
def igo_b (k : Nat) (fuel : Nat) (s e si : Nat) (m : Nat → Nat) : Nat → Nat :=
  match fuel with
  | 0 => m
  | fuel + 1 =>
    if s < e then igo_b k fuel (s + k) e (si + k) (cstore k s si m) else m

/-- `r0::init_data::<T>(sdata, edata, sidata)` on byte-addressed memory,
where `k = mem::size_of::<T>()`. -/
def init_data_bytes (k s e si : Nat) (m : Nat → Nat) : Nat → Nat :=
  igo_b k (e - s) s e si m

/-- Fuel irrelevance for the byte-level `zero_bss` loop (element size is
positive): any fuel of at least `e - s` yields the same result. -/
lemma zgo_b_ext (k : Nat) (hk : 0 < k) (e : Nat) :
    ∀ (n f₁ f₂ s : Nat) (m : Nat → Nat), e - s ≤ n → e - s ≤ f₁ → e - s ≤ f₂ →
      zgo_b k f₁ s e m = zgo_b k f₂ s e m := by
  intro n
  induction n with
  | zero =>
    intro f₁ f₂ s m hn h1 h2
    have hse : ¬ s < e := by omega
    cases f₁ <;> cases f₂ <;> simp [zgo_b, if_neg hse]
  | succ n ih =>
    intro f₁ f₂ s m hn h1 h2
    by_cases hse : s < e
    · cases f₁ with
      | zero => omega
      | succ g₁ =>
        cases f₂ with
        | zero => omega
        | succ g₂ =>
          simp only [zgo_b, if_pos hse]
          exact ih g₁ g₂ (s + k) (zstore k s m) (by omega) (by omega) (by omega)
    · cases f₁ <;> cases f₂ <;> simp [zgo_b, if_neg hse]

/-- Unfolding of `zero_bss_bytes` as the source `while` loop steps. -/
lemma zero_bss_bytes_step (k : Nat) (hk : 0 < k) (s e : Nat) (m : Nat → Nat)
    (hse : s < e) :
    zero_bss_bytes k s e m = zero_bss_bytes k (s + k) e (zstore k s m) := by
  unfold zero_bss_bytes
  obtain ⟨g, hg⟩ : ∃ g, e - s = g + 1 := ⟨e - s - 1, by omega⟩
  rw [hg]
  simp only [zgo_b, if_pos hse]
  exact zgo_b_ext k hk e g g (e - (s + k)) (s + k) (zstore k s m) (by omega)
    (by omega) (by omega)

/-- `zero_bss_bytes` on an empty range is the identity. -/
lemma zero_bss_bytes_stop (k s e : Nat) (m : Nat → Nat) (hse : ¬ s < e) :
    zero_bss_bytes k s e m = m := by
  unfold zero_bss_bytes
  have : e - s = 0 := by omega
  rw [this]
  rfl

/-- Memory after the byte-level `zero_bss`, provided the byte length of the
range is an exact multiple of the element size: zero on the range, untouched
elsewhere. -/
lemma zero_bss_bytes_mem (k : Nat) (hk : 0 < k) (e : Nat) :
    ∀ (n s : Nat) (m : Nat → Nat), e - s ≤ n → k ∣ e - s →
      ∀ a, zero_bss_bytes k s e m a = if s ≤ a ∧ a < e then 0 else m a := by
  intro n
  induction n with
  | zero =>
    intro s m hn _ a
    have hse : ¬ s < e := by omega
    rw [zero_bss_bytes_stop k s e m hse]
    have : ¬ (s ≤ a ∧ a < e) := by omega
    simp [this]
  | succ n ih =>
    intro s m hn hdvd a
    by_cases hse : s < e
    · have hk_le : s + k ≤ e := by
        rcases hdvd with ⟨t, ht⟩
        rcases t with _ | t
        · omega
        · have : k * (t + 1) = k * t + k := by ring
          omega
      rw [zero_bss_bytes_step k hk s e m hse]
      have hdvd' : k ∣ e - (s + k) := by
        have : e - (s + k) = (e - s) - k := by omega
        rw [this]
        exact Nat.dvd_sub' hdvd dvd_rfl
      rw [ih (s + k) (zstore k s m) (by omega) hdvd' a]
      by_cases h1 : s + k ≤ a ∧ a < e
      · have : s ≤ a ∧ a < e := by omega
        simp [h1, this]
      · by_cases h2 : s ≤ a ∧ a < e
        · have ha : s ≤ a ∧ a < s + k := by omega
          simp [h1, h2, zstore, ha]
        · have ha : ¬ (s ≤ a ∧ a < s + k) := by omega
          simp [h1, h2, zstore, ha]
    · rw [zero_bss_bytes_stop k s e m hse]
      have : ¬ (s ≤ a ∧ a < e) := by omega
      simp [this]

/-- Fuel irrelevance for the byte-level `init_data` loop (element size is
positive): any fuel of at least `e - s` yields the same result. -/
lemma igo_b_ext (k : Nat) (hk : 0 < k) (e : Nat) :
    ∀ (n f₁ f₂ s si : Nat) (m : Nat → Nat),
      e - s ≤ n → e - s ≤ f₁ → e - s ≤ f₂ →
      igo_b k f₁ s e si m = igo_b k f₂ s e si m := by
  intro n
  induction n with
  | zero =>
    intro f₁ f₂ s si m hn h1 h2
    have hse : ¬ s < e := by omega
    cases f₁ <;> cases f₂ <;> simp [igo_b, if_neg hse]
  | succ n ih =>
    intro f₁ f₂ s si m hn h1 h2
    by_cases hse : s < e
    · cases f₁ with
      | zero => omega
      | succ g₁ =>
        cases f₂ with
        | zero => omega
        | succ g₂ =>
          simp only [igo_b, if_pos hse]
          exact ih g₁ g₂ (s + k) (si + k) (cstore k s si m) (by omega)
            (by omega) (by omega)
    · cases f₁ <;> cases f₂ <;> simp [igo_b, if_neg hse]

/-- Unfolding of `init_data_bytes` as the source `while` loop steps. -/
lemma init_data_bytes_step (k : Nat) (hk : 0 < k) (s e si : Nat)
    (m : Nat → Nat) (hse : s < e) :
    init_data_bytes k s e si m =
      init_data_bytes k (s + k) e (si + k) (cstore k s si m) := by
  unfold init_data_bytes
  obtain ⟨g, hg⟩ : ∃ g, e - s = g + 1 := ⟨e - s - 1, by omega⟩
  rw [hg]
  simp only [igo_b, if_pos hse]
  exact igo_b_ext k hk e g g (e - (s + k)) (s + k) (si + k) (cstore k s si m)
    (by omega) (by omega) (by omega)

/-- `init_data_bytes` on an empty range is the identity. -/
lemma init_data_bytes_stop (k s e si : Nat) (m : Nat → Nat) (hse : ¬ s < e) :
    init_data_bytes k s e si m = m := by
  unfold init_data_bytes
  have : e - s = 0 := by omega
  rw [this]
  rfl

/-- Memory after the byte-level `init_data`, provided the byte length of the
destination range is an exact multiple of the element size and the source
range `[si, si + (e - s))` is disjoint from the destination `[s, e)`: the
destination holds the corresponding source bytes, everything else is
untouched. -/
lemma init_data_bytes_mem (k : Nat) (hk : 0 < k) (e : Nat) :
    ∀ (n s si : Nat) (m : Nat → Nat), e - s ≤ n → k ∣ e - s →
      (e ≤ si ∨ si + (e - s) ≤ s) →
      ∀ a, init_data_bytes k s e si m a =
        if s ≤ a ∧ a < e then m (si + (a - s)) else m a := by
  intro n
  induction n with
  | zero =>
    intro s si m hn _ _ a
    have hse : ¬ s < e := by omega
    rw [init_data_bytes_stop k s e si m hse]
    have : ¬ (s ≤ a ∧ a < e) := by omega
    simp [this]
  | succ n ih =>
    intro s si m hn hdvd hdisj a
    by_cases hse : s < e
    · have hk_le : s + k ≤ e := by
        rcases hdvd with ⟨t, ht⟩
        rcases t with _ | t
        · omega
        · have : k * (t + 1) = k * t + k := by ring
          omega
      rw [init_data_bytes_step k hk s e si m hse]
      have hdvd' : k ∣ e - (s + k) := by
        have : e - (s + k) = (e - s) - k := by omega
        rw [this]
        exact Nat.dvd_sub' hdvd dvd_rfl
      have hdisj' : e ≤ si + k ∨ (si + k) + (e - (s + k)) ≤ s + k := by omega
      rw [ih (s + k) (si + k) (cstore k s si m) (by omega) hdvd' hdisj' a]
      by_cases h1 : s + k ≤ a ∧ a < e
      · have h2 : s ≤ a ∧ a < e := by omega
        have harr : si + k + (a - (s + k)) = si + (a - s) := by omega
        have hout : ¬ (s ≤ si + (a - s) ∧ si + (a - s) < s + k) := by omega
        simp only [if_pos h1, if_pos h2, harr, cstore, hout, if_neg,
          if_false]
      · by_cases h2 : s ≤ a ∧ a < e
        · have ha : s ≤ a ∧ a < s + k := by omega
          simp [h1, h2, cstore, ha]
        · have ha : ¬ (s ≤ a ∧ a < s + k) := by omega
          simp [h1, h2, cstore, ha]
    · rw [init_data_bytes_stop k s e si m hse]
      have : ¬ (s ≤ a ∧ a < e) := by omega
      simp [this]

/-!
Model of the compile-time element-type constraint.

In `src/lib.rs` both `init_data<T>` and `zero_bss<T>` constrain their type
parameter with the single trait bound `where T: Copy`.  We model a sample of
Rust types together with the standard library's `Copy` implementations, and
translate the `where` clauses into acceptance predicates: an instantiation
type checks exactly when the type implements `Copy`.
-/

/-- A sample of concrete Rust types a caller could instantiate `T` with. -/
inductive RustType where
  | u8 | u16 | u32 | u64 | u128
  | i8 | i32
  | f32
  | boolTy
  | unitTy
  | pairU8U8
  | stringTy
  | vecU8
deriving DecidableEq, Repr

/-- Whether the Rust standard library provides a `Copy` implementation for
the type: all the scalar, unit and pair-of-`Copy` types are `Copy`; the
owning types `String` and `Vec<u8>` are not. -/
def implsCopy : RustType → Bool
  | .stringTy => false
  | .vecU8 => false
  | _ => true

/-- Translated from the `where T: Copy` clause of `init_data<T>`:
instantiating `init_data` at `t` type checks iff `t` implements `Copy`. -/
def init_data_accepts (t : RustType) : Bool := implsCopy t

/-- Translated from the `where T: Copy` clause of `zero_bss<T>`:
instantiating `zero_bss` at `t` type checks iff `t` implements `Copy`. -/
def zero_bss_accepts (t : RustType) : Bool := implsCopy t

/-- The closed word-type set named by the specification: the 8-, 16-, 32-,
64- and 128-bit unsigned integers. -/
def allowedWordTypes : List RustType :=
  [.u8, .u16, .u32, .u64, .u128]

/-!
Model of `run_init_array`.

Function pointers are identified by `Nat` codes; the merged `.init_array`
section is a map from byte addresses to the stored function pointer.  `psz`
is `mem::size_of::<extern "C" fn()>()`.  The result of `run_init_array` is
the sequence of functions it calls, in call order.
-/

/-- `slice::from_raw_parts(p, n)` over the stored function pointers: the `n`
values at addresses `p, p + psz, p + 2 * psz, …`. -/
def from_raw_parts (fns : Nat → Nat) (p n psz : Nat) : List Nat :=
  (List.range n).map (fun i => fns (p + i * psz))

/-- `r0::run_init_array(start, end)`: computes
`n = (end - start) / size_of::<extern "C" fn()>()` and calls the `n`
functions of `slice::from_raw_parts(start, n)` in order; the result is the
call sequence. -/
def run_init_array (psz s e : Nat) (fns : Nat → Nat) : List Nat :=
  from_raw_parts fns s ((e - s) / psz) psz

/-!
The claims.
-/

/-- Claim C1: for every destination range of `N > 0` elements disjoint from
the source range, after `init_data sdata edata sidata` every element of the
destination range `[sdata, edata)` equals the element at the corresponding
offset of the source range as it was at the time of the call, and the source
range itself is left unmodified. -/
theorem init_data_copy_correct (sdata edata sidata : Nat) (m : Nat → Nat)
    (hN : sdata < edata)
    (hdisj : edata ≤ sidata ∨ sidata + (edata - sdata) ≤ sdata) :
    ∀ i, i < edata - sdata →
      (init_data sdata edata sidata m).1 (sdata + i) = m (sidata + i) ∧
      (init_data sdata edata sidata m).1 (sidata + i) = m (sidata + i) := by
  intro i hi
  exact init_go_copy edata (edata - sdata) sdata sidata m (by omega)
    (by omega) i hi

/-- Witness for C1: copying three elements from addresses `0, 1, 2` to
addresses `10, 11, 12` over the memory `fun a => a + 100`. -/
theorem init_data_copy_correct_witness :
    (init_data 10 13 0 (fun a => a + 100)).1 11 = 101 ∧
    (init_data 10 13 0 (fun a => a + 100)).1 1 = 101 := by
  have h := init_data_copy_correct 10 13 0 (fun a => a + 100) (by decide)
    (Or.inr (by decide)) 1 (by decide)
  simpa using h

/-- Claim C2: for every range of `N > 0` elements, after
`zero_bss sbss ebss` every element of `[sbss, ebss)` holds the all-zero word,
regardless of the value it held before the call. -/
theorem zero_bss_zero_correct (sbss ebss : Nat) (m : Nat → Nat)
    (_hN : sbss < ebss) :
    ∀ a, sbss ≤ a → a < ebss → (zero_bss sbss ebss m).1 a = 0 := by
  intro a h1 h2
  rw [zero_bss_mem]
  simp [h1, h2]

/-- Witness for C2: zeroing `[2, 5)` over the constant-`7` memory. -/
theorem zero_bss_zero_correct_witness :
    (zero_bss 2 5 (fun _ => 7)).1 3 = 0 :=
  zero_bss_zero_correct 2 5 (fun _ => 7) (by decide) 3 (by decide) (by decide)

/-- Claim C3 (amended): the element type of both operations is constrained
only by the `T: Copy` bound: the five unsigned word types are accepted and
non-`Copy` types (`String`, `Vec<u8>`) are rejected at compile time, but the
constraint is not closed — other `Copy` types such as `i32`, `f32`, `bool`,
`()` and `(u8, u8)` are accepted as well. -/
theorem element_type_constraint_is_copy :
    (init_data_accepts RustType.u8 = true ∧
     init_data_accepts RustType.u16 = true ∧
     init_data_accepts RustType.u32 = true ∧
     init_data_accepts RustType.u64 = true ∧
     init_data_accepts RustType.u128 = true ∧
     zero_bss_accepts RustType.u8 = true ∧
     zero_bss_accepts RustType.u16 = true ∧
     zero_bss_accepts RustType.u32 = true ∧
     zero_bss_accepts RustType.u64 = true ∧
     zero_bss_accepts RustType.u128 = true) ∧
    (init_data_accepts RustType.stringTy = false ∧
     init_data_accepts RustType.vecU8 = false ∧
     zero_bss_accepts RustType.stringTy = false ∧
     zero_bss_accepts RustType.vecU8 = false) ∧
    (init_data_accepts RustType.i8 = true ∧
     init_data_accepts RustType.i32 = true ∧
     init_data_accepts RustType.f32 = true ∧
     init_data_accepts RustType.boolTy = true ∧
     init_data_accepts RustType.unitTy = true ∧
     init_data_accepts RustType.pairU8U8 = true) := by
  decide

/-- Counterexample for C3 as stated: `i32` is not one of the five unsigned
word types, yet both operations accept it, because the only bound in the
source is `T: Copy`. -/
theorem element_type_constraint_not_closed :
    init_data_accepts RustType.i32 = true ∧
    zero_bss_accepts RustType.i32 = true ∧
    RustType.i32 ∉ allowedWordTypes := by
  decide

/-- Claim C4: every access the `zero_bss` loop performs is a volatile store
of the zero word (issued through `ptr::write_volatile`, so it cannot be
elided or merged); the stores go in strictly increasing address order; and
each element of the range is stored to exactly once. -/
theorem zero_bss_store_discipline (s e : Nat) (m : Nat → Nat) :
    (∀ ev ∈ (zero_bss s e m).2, ∃ a, ev = MemEvent.write a 0 true) ∧
    strictInc (((zero_bss s e m).2).map MemEvent.addr) ∧
    (∀ a, s ≤ a → a < e →
      ((zero_bss s e m).2).countP (fun ev => MemEvent.addr ev == a) = 1) := by
  unfold zero_bss
  refine ⟨?_, ?_, ?_⟩
  · intro ev hev
    obtain ⟨a, rfl, -⟩ := zero_go_trace_mem e (e - s) s m ev hev
    exact ⟨a, rfl⟩
  · exact zero_go_inc e (e - s) s m
  · intro a h1 h2
    rw [zero_go_cnt]
    have : s ≤ a ∧ a < e ∧ a < s + (e - s) := by omega
    simp [this]

/-- Witness for C4: zeroing `[1, 3)` over the constant-`5` memory; the first
emitted event is the volatile store at address `1`, and address `2` is stored
to exactly once. -/
theorem zero_bss_store_discipline_witness :
    (∃ a, MemEvent.write 1 0 true = MemEvent.write a 0 true) ∧
    strictInc (((zero_bss 1 3 (fun _ => 5)).2).map MemEvent.addr) ∧
    ((zero_bss 1 3 (fun _ => 5)).2).countP
      (fun ev => MemEvent.addr ev == 2) = 1 := by
  have h := zero_bss_store_discipline 1 3 (fun _ => 5)
  exact ⟨h.1 (MemEvent.write 1 0 true) (by decide), h.2.1,
    h.2.2 2 (by decide) (by decide)⟩

/-- Claim C5: if the destination start pointer equals the destination end
pointer (`N = 0`), `init_data` performs no memory access at all and leaves
memory — both ranges included — unchanged. -/
theorem init_data_empty_noop (s si : Nat) (m : Nat → Nat) :
    init_data s s si m = (m, []) := by
  unfold init_data
  rw [Nat.sub_self]
  rfl

/-- Claim C6: running the `zero_bss` fill logic twice in sequence on the same
range produces exactly the same final memory as running it once. -/
theorem zero_bss_idempotent (s e : Nat) (m : Nat → Nat) :
    (zero_bss s e ((zero_bss s e m).1)).1 = (zero_bss s e m).1 := by
  funext a
  rw [zero_bss_mem, zero_bss_mem]
  by_cases h : s ≤ a ∧ a < e <;> simp [h]

/-- Claim C7: on a byte range whose length admits both interpretations (a
multiple of four bytes) and whose source is disjoint from the destination,
running the zero operation — and likewise the copy operation — over the range
viewed as 8-bit words produces exactly the same final byte contents as
running it over the range viewed as 32-bit words. -/
theorem width_independence (s e si : Nat) (m : Nat → Nat)
    (hlen : 4 ∣ e - s)
    (hdisj : e ≤ si ∨ si + (e - s) ≤ s) :
    zero_bss_bytes 1 s e m = zero_bss_bytes 4 s e m ∧
    init_data_bytes 1 s e si m = init_data_bytes 4 s e si m := by
  constructor
  · funext a
    rw [zero_bss_bytes_mem 1 (by omega) e (e - s) s m le_rfl (one_dvd _) a,
      zero_bss_bytes_mem 4 (by omega) e (e - s) s m le_rfl hlen a]
  · funext a
    rw [init_data_bytes_mem 1 (by omega) e (e - s) s si m le_rfl (one_dvd _)
        hdisj a,
      init_data_bytes_mem 4 (by omega) e (e - s) s si m le_rfl hlen hdisj a]

/-- Witness for C7: the byte range `[0, 4)` with source at `[8, 12)` over the
memory `fun a => a`. -/
theorem width_independence_witness :
    zero_bss_bytes 1 0 4 (fun a => a) = zero_bss_bytes 4 0 4 (fun a => a) ∧
    init_data_bytes 1 0 4 8 (fun a => a) =
      init_data_bytes 4 0 4 8 (fun a => a) :=
  width_independence 0 4 8 (fun a => a) (by decide) (Or.inl (by decide))

/-- Claim C8: under the precondition `end ≥ start`, both the copy loop and
the zero loop terminate after exactly `end - start` iterations (each
iteration performs exactly one store, so the store count is the iteration
count), and fuel `end - start` suffices: any fuel at least `end - start`
yields the very same result, so there is no other source of
non-termination. -/
theorem loops_iterate_exactly (s e si : Nat) (m : Nat → Nat) (_h : s ≤ e) :
    ((init_data s e si m).2).countP MemEvent.isStore = e - s ∧
    ((zero_bss s e m).2).countP MemEvent.isStore = e - s ∧
    (∀ f, e - s ≤ f →
      init_go f s e si m = init_data s e si m ∧
      zero_go f s e m = zero_bss s e m) := by
  have hh : e - s ≤ e - s := le_rfl
  refine ⟨init_go_cnt_store e (e - s) s si m hh,
    zero_go_cnt_store e (e - s) s m hh, ?_⟩
  intro f hf
  exact ⟨init_go_ext e f f (e - s) s si m hf hf hh,
    zero_go_ext e f f (e - s) s m hf hf hh⟩

/-- Witness for C8: the range `[3, 6)` (three iterations) with source at
`20` over the memory `fun a => a`, and fuel `5 ≥ 3`. -/
theorem loops_iterate_exactly_witness :
    ((init_data 3 6 20 (fun a => a)).2).countP MemEvent.isStore = 3 ∧
    ((zero_bss 3 6 (fun a => a)).2).countP MemEvent.isStore = 3 ∧
    (init_go 5 3 6 20 (fun a => a) = init_data 3 6 20 (fun a => a) ∧
     zero_go 5 3 6 (fun a => a) = zero_bss 3 6 (fun a => a)) := by
  have h := loops_iterate_exactly 3 6 20 (fun a => a) (by decide)
  exact ⟨h.1, h.2.1, h.2.2 5 (by decide)⟩

/-- Claim C9: with `end ≥ start`, neither operation stores to any address at
or beyond the exclusive end pointer, `init_data` stores nowhere outside the
destination range `[sdata, edata)`, and every address outside the written
range keeps its prior value. -/
theorem no_store_outside_range (s e si : Nat) (m : Nat → Nat)
    (_h : s ≤ e) :
    (∀ ev ∈ (init_data s e si m).2, MemEvent.isStore ev = true →
      s ≤ MemEvent.addr ev ∧ MemEvent.addr ev < e) ∧
    (∀ ev ∈ (zero_bss s e m).2,
      s ≤ MemEvent.addr ev ∧ MemEvent.addr ev < e) ∧
    (∀ a, a < s ∨ e ≤ a →
      (init_data s e si m).1 a = m a ∧ (zero_bss s e m).1 a = m a) := by
  refine ⟨?_, ?_, ?_⟩
  · intro ev hev hst
    exact init_go_stores e (e - s) s si m ev hev hst
  · intro ev hev
    obtain ⟨a, rfl, h1, h2, -⟩ := zero_go_trace_mem e (e - s) s m ev hev
    exact ⟨h1, h2⟩
  · intro a ha
    constructor
    · cases ha with
      | inl hlt => exact init_go_frame e (e - s) s si m a (Or.inl hlt)
      | inr hge => exact init_go_frame_end e (e - s) s si m a hge
    · rw [zero_bss_mem]
      have : ¬ (s ≤ a ∧ a < e) := by omega
      simp [this]

/-- Witness for C9: the range `[1, 3)` with source at `10` over the memory
`fun a => a`; the store at address `1` is in range, and addresses `0` (below)
and `3` (the end pointer) keep their prior values. -/
theorem no_store_outside_range_witness :
    (1 ≤ MemEvent.addr (MemEvent.write 1 10 false) ∧
      MemEvent.addr (MemEvent.write 1 10 false) < 3) ∧
    ((init_data 1 3 10 (fun a => a)).1 0 = 0 ∧
      (zero_bss 1 3 (fun a => a)).1 0 = 0) ∧
    ((init_data 1 3 10 (fun a => a)).1 3 = 3 ∧
      (zero_bss 1 3 (fun a => a)).1 3 = 3) := by
  have h := no_store_outside_range 1 3 10 (fun a => a) (by decide)
  exact ⟨h.1 (MemEvent.write 1 10 false) (by decide) (by decide),
    h.2.2 0 (Or.inl (by decide)), h.2.2 3 (Or.inr (by decide))⟩

/-- Claim C10: `run_init_array start end` computes
`n = (end - start) / size_of::<extern "C" fn()>()` and calls exactly the `n`
function pointers stored at `start, start + psz, …` once each, in increasing
address order; when `start = end` it calls no function. -/
theorem run_init_array_calls (psz s e : Nat) (fns : Nat → Nat) :
    (run_init_array psz s e fns).length = (e - s) / psz ∧
    (∀ i, i < (e - s) / psz →
      (run_init_array psz s e fns)[i]? = some (fns (s + i * psz))) ∧
    run_init_array psz s s fns = [] := by
  refine ⟨?_, ?_, ?_⟩
  · simp [run_init_array, from_raw_parts]
  · intro i hi
    simp [run_init_array, from_raw_parts, hi]
  · simp [run_init_array, from_raw_parts]

/-- Witness for C10: eight bytes of `.init_array` holding two 4-byte function
pointers starting at address `100`, over the pointer memory `fun a => a`. -/
theorem run_init_array_calls_witness :
    (run_init_array 4 100 108 (fun a => a)).length = 2 ∧
    (run_init_array 4 100 108 (fun a => a))[1]? = some 104 ∧
    run_init_array 4 100 100 (fun a => a) = [] := by
  have h := run_init_array_calls 4 100 108 (fun a => a)
  have h0 := run_init_array_calls 4 100 100 (fun a => a)
  refine ⟨h.1, ?_, h0.2.2⟩
  have := h.2.1 1 (by decide)
  simpa using this
